import Mathlib

/-!
Verification of the colored-term markup engine of
`src/components/editing/EquationEditorModal.tsx`.

The engine works on markup strings containing annotation occurrences of the
form `\clr{name}{content}`.  We model strings as `List Char` and translate:

* `COLOR_PRESETS` (lines 8-17): the fixed palette.
* `parseTermsFromLatex` (lines 120-135): a global scan of the regex
  `\\clr\{([^}]+)\}\{([^}]+)\}`; each match yields a term whose color is
  `colors[name] || COLOR_PRESETS[found.length % COLOR_PRESETS.length].value`.
* the render-preview substitution (lines 143-149): the same pattern, each
  match rewritten to `\textcolor{color}{content}` with
  `color = colorMap[name] || '#888888'`.
* `handleUpdateTerm` (lines 168-171): global replace of the dynamically
  built regex `\\clr\{<termName>\}\{[^}]+\}` by `\clr{<termName>}{<newContent>}`.
* `handleRemoveTerm` (lines 185-188): global replace of
  `\\clr\{<termName>\}\{([^}]+)\}` by `$1`.
* `handleAddTerm` (lines 200-220): insertion of `\clr{term<k+1>}{<selection>}`
  at the selection range, with `'text'` as default for an empty selection.

JavaScript regex semantics modelled here: a global replace / exec loop finds
leftmost non-overlapping matches scanning left to right; `[^}]+` is a greedy
run of one or more characters other than a closing brace.  Since `[^}]` can
never consume the terminating brace, matching is deterministic and needs no
backtracking, so the character-by-character matchers below are exact.

In `handleUpdateTerm` / `handleRemoveTerm` the term name is interpolated
into the regex source without escaping, so a name is interpreted as regex
text, not literally.  The model compiles a name character-wise: `.` becomes
the regex wildcard (any character except a line terminator), every other
character a literal.  This is exact for names whose characters are either
non-special or `.`; names containing other regex-special characters
(quantifiers, classes, groups, anchors, backslash) and replacement contents
containing `$` are outside the model, and theorems quantifying over names
carry a `plainName` hypothesis where that matters.
-/

def lc (s : String) : List Char := s.data

structure Preset where
  pname : List Char
  value : List Char
  deriving DecidableEq, Repr

/-- The palette `COLOR_PRESETS` from the source, in order. -/
def COLOR_PRESETS : List Preset :=
  [⟨lc "Red", lc "#ef4444"⟩, ⟨lc "Blue", lc "#3b82f6"⟩, ⟨lc "Green", lc "#22c55e"⟩,
   ⟨lc "Orange", lc "#f97316"⟩, ⟨lc "Purple", lc "#a855f7"⟩, ⟨lc "Cyan", lc "#06b6d4"⟩,
   ⟨lc "Pink", lc "#ec4899"⟩, ⟨lc "Yellow", lc "#eab308"⟩]

/-- `COLOR_PRESETS[k % COLOR_PRESETS.length].value`. -/
def presetAt (k : Nat) : List Char :=
  (COLOR_PRESETS.getD (k % COLOR_PRESETS.length) ⟨[], []⟩).value

/-- Own-property lookup in the colorMap (modelled as an association list). -/
def lookupS : List (List Char × List Char) → List Char → Option (List Char)
  | [], _ => none
  | (a, v) :: t, n => if a = n then some v else lookupS t n

/-- `colors[termName] || COLOR_PRESETS[k % COLOR_PRESETS.length].value`
(line 130).  The JavaScript `||` treats an empty string as absent. -/
def resolveColor (cm : List (List Char × List Char)) (n : List Char) (k : Nat) : List Char :=
  match lookupS cm n with
  | some v => if v = [] then presetAt k else v
  | none => presetAt k

/-- `colorMap[termName] || '#888888'` (line 147). -/
def renderColor (cm : List (List Char × List Char)) (n : List Char) : List Char :=
  match lookupS cm n with
  | some v => if v = [] then lc "#888888" else v
  | none => lc "#888888"

/-- One parsed term: `{ name, content, color }` (line 122). -/
structure Tm where
  name : List Char
  content : List Char
  color : List Char
  deriving DecidableEq, Repr

/-- The literal prefix `\clr` followed by an opening brace. -/
def clrHead : List Char := lc "\\clr\x7b"

/-- Consume an exact literal prefix. -/
def dropLit : List Char → List Char → Option (List Char)
  | [], s => some s
  | _ :: _, [] => none
  | p :: ps, c :: cs => if c = p then dropLit ps cs else none

/-- The greedy run `[^}]*`: longest prefix without a closing brace. -/
def takeNB : List Char → List Char
  | [] => []
  | c :: cs => if c = '\x7d' then [] else c :: takeNB cs

/-- Remainder after the greedy run `[^}]*`. -/
def dropNB : List Char → List Char
  | [] => []
  | c :: cs => if c = '\x7d' then c :: cs else dropNB cs

/-- Expect a closing brace and consume it. -/
def expectCB : List Char → Option (List Char)
  | c :: r => if c = '\x7d' then some r else none
  | [] => none

/-- Expect an opening brace and consume it. -/
def expectOB : List Char → Option (List Char)
  | c :: r => if c = '\x7b' then some r else none
  | [] => none

/-- The capture `([^}]+)` followed by `\}`: a nonempty greedy brace-free run
and its terminating closing brace. -/
def capNB (s : List Char) : Option (List Char × List Char) :=
  let ct := takeNB s
  if ct = [] then none else
  match expectCB (dropNB s) with
  | none => none
  | some r => some (ct, r)

/-- Match `\\clr\{([^}]+)\}\{([^}]+)\}` at the head of the string
(the extraction / render pattern, lines 121 and 144).  Returns
(name capture, content capture, rest). -/
def matchClr (s : List Char) : Option (List Char × List Char × List Char) :=
  match dropLit clrHead s with
  | none => none
  | some r0 =>
    match capNB r0 with
    | none => none
    | some (nm, r1) =>
      match expectOB r1 with
      | none => none
      | some r2 =>
        match capNB r2 with
        | none => none
        | some (ct, r4) => some (nm, ct, r4)

/-- The literal text `\clr{` ++ n ++ `}{` ++ c ++ `}`. -/
def wrapAnn (n c : List Char) : List Char :=
  clrHead ++ n ++ '\x7d' :: '\x7b' :: (c ++ ['\x7d'])

/-- Line terminators that the JavaScript regex wildcard `.` does not match. -/
def lineTermChars : List Char := ['\n', '\r', '\u2028', '\u2029']

/-- One compiled name-pattern character: `.` is the wildcard, everything
else matches literally. -/
def matchNameChar (p c : Char) : Bool :=
  if p = '.' then !(decide (c ∈ lineTermChars)) else decide (p = c)

/-- Consume the interpolated-name section of the pattern. -/
def dropNamePat : List Char → List Char → Option (List Char)
  | [], s => some s
  | _ :: _, [] => none
  | p :: ps, c :: cs => if matchNameChar p c then dropNamePat ps cs else none

/-- Match `\\clr\{N\}\{([^}]+)\}` at the head of the string, where `N` is the
interpolated term name (the update / remove pattern, lines 169 and 186).
Returns (content capture, rest). -/
def matchClrName (N : List Char) (s : List Char) : Option (List Char × List Char) :=
  match dropLit clrHead s with
  | none => none
  | some r0 =>
    match dropNamePat N r0 with
    | none => none
    | some r1 =>
      match expectCB r1 with
      | none => none
      | some r1' =>
        match expectOB r1' with
        | none => none
        | some r2 =>
          match capNB r2 with
          | none => none
          | some (ct, r4) => some (ct, r4)

/-- Like `matchClrName` but with the name taken literally (used to state
what an "occurrence of name N" is, independently of regex compilation). -/
def matchClrLit (N : List Char) (s : List Char) : Option (List Char × List Char) :=
  match dropLit clrHead s with
  | none => none
  | some r0 =>
    match dropLit N r0 with
    | none => none
    | some r1 =>
      match expectCB r1 with
      | none => none
      | some r1' =>
        match expectOB r1' with
        | none => none
        | some r2 =>
          match capNB r2 with
          | none => none
          | some (ct, r4) => some (ct, r4)

/-- Fueled worker for `parseTermsFromLatex`: the `while (pattern.exec)` loop,
`k` is `foundTerms.length` so far. -/
def extractF (cm : List (List Char × List Char)) : Nat → List Char → Nat → List Tm
  | 0, _, _ => []
  | f + 1, s, k =>
    match matchClr s with
    | some (n, c, r) => ⟨n, c, resolveColor cm n k⟩ :: extractF cm f r (k + 1)
    | none =>
      match s with
      | [] => []
      | _ :: t => extractF cm f t k

/-- The extraction scan started with `k` terms already found. -/
def extractFrom (cm : List (List Char × List Char)) (s : List Char) (k : Nat) : List Tm :=
  extractF cm s.length s k

/-- `parseTermsFromLatex(latexStr, colors)` (lines 120-135). -/
def extractTerms (cm : List (List Char × List Char)) (s : List Char) : List Tm :=
  extractFrom cm s 0

/-- Fueled worker for a global replace of the name-keyed pattern; `emit`
builds the replacement from the content capture. -/
def replF (N : List Char) (emit : List Char → List Char) : Nat → List Char → List Char
  | 0, _ => []
  | f + 1, s =>
    match matchClrName N s with
    | some (c, r) => emit c ++ replF N emit f r
    | none =>
      match s with
      | [] => []
      | a :: t => a :: replF N emit f t

/-- Global replace of `\\clr\{N\}\{[^}]+\}` (JavaScript `String.replace`
with the `g` flag). -/
def replaceClrName (N : List Char) (emit : List Char → List Char) (s : List Char) : List Char :=
  replF N emit s.length s

/-- `handleUpdateTerm` on the markup (lines 168-171): every match of the
name-keyed pattern is replaced by the literal `\clr{N}{C}`. -/
def updateTerm (M N C : List Char) : List Char :=
  replaceClrName N (fun _ => wrapAnn N C) M

/-- `handleRemoveTerm` on the markup (lines 185-188): every match of the
name-keyed pattern is replaced by its content capture (`$1`). -/
def removeTerm (M N : List Char) : List Char :=
  replaceClrName N (fun c => c) M

/-- Fueled worker for the render substitution. -/
def renderF (cm : List (List Char × List Char)) : Nat → List Char → List Char
  | 0, _ => []
  | f + 1, s =>
    match matchClr s with
    | some (n, c, r) =>
      lc "\\textcolor\x7b" ++ renderColor cm n ++ '\x7d' :: '\x7b' :: (c ++ '\x7d' :: renderF cm f r)
    | none =>
      match s with
      | [] => []
      | a :: t => a :: renderF cm f t

/-- The render-preview substitution (lines 143-149): every match of the
extraction pattern becomes `\textcolor{color}{content}`. -/
def toRenderable (cm : List (List Char × List Char)) (s : List Char) : List Char :=
  renderF cm s.length s

/-- No position of the string matches the extraction pattern. -/
def allNoneClr : List Char → Bool
  | [] => true
  | c :: t => (matchClr (c :: t)).isNone && allNoneClr t

/-- No position of the string matches the name-keyed pattern for `N`. -/
def allNoneName (N : List Char) : List Char → Bool
  | [] => true
  | c :: t => (matchClrName N (c :: t)).isNone && allNoneName N t

/-- Some position of the string carries a literal occurrence `\clr{N}{...}`. -/
def hasOccLit (N : List Char) : List Char → Bool
  | [] => false
  | c :: t => (matchClrLit N (c :: t)).isSome || hasOccLit N t

/-- Every match of the name-keyed pattern for `N` in the string has content
capture exactly `C`. -/
def allContentIs (N C : List Char) : List Char → Bool
  | [] => true
  | a :: t =>
    (match matchClrName N (a :: t) with
     | some (c, _) => decide (c = C)
     | none => true) && allContentIs N C t

/-- `A` contributes no match of the extraction pattern when followed by `B`:
no match starts at any position inside `A`. -/
def inertClr : List Char → List Char → Bool
  | [], _ => true
  | a :: t, B => (matchClr (a :: (t ++ B))).isNone && inertClr t B

/-- JavaScript regex special characters. -/
def specials : List Char :=
  ['\\', '^', '$', '.', '|', '?', '*', '+', '(', ')', '[', ']', '\x7b', '\x7d']

/-- A name none of whose characters is regex-special: the interpolated
pattern then matches the name literally. -/
def plainName (N : List Char) : Bool :=
  N.all (fun c => !(decide (c ∈ specials)))

/-- Decimal digits of a number, as in JavaScript string interpolation. -/
def natChars (n : Nat) : List Char := (Nat.repr n).data

/-- `` `term${terms.length + 1}` `` (line 201), with `k` the current count. -/
def addTermName (k : Nat) : List Char := lc "term" ++ natChars (k + 1)

/-- `handleAddTerm` on the markup (lines 200-220): wrap the selected range
(or the default `'text'` when the selection is empty) and splice it in. -/
def addTerm (M : List Char) (k start stop : Nat) : List Char :=
  let sel := (M.drop start).take (stop - start)
  let sel2 := if sel = [] then lc "text" else sel
  M.take start ++ wrapAnn (addTermName k) sel2 ++ M.drop stop

/-- The (name, content) projections of an extracted term list. -/
def pairsOf (ts : List Tm) : List (List Char × List Char) :=
  ts.map (fun t => (t.name, t.content))

/-! ### Basic facts about the matchers -/

theorem dropLit_iff (p s r : List Char) : dropLit p s = some r ↔ s = p ++ r := by
  induction p generalizing s with
  | nil => simp [dropLit]
  | cons a ps ih =>
    cases s with
    | nil => simp [dropLit]
    | cons c cs =>
      by_cases h : c = a
      · subst h; simp [dropLit, ih]
      · simp [dropLit, h, fun hh : c = a => h hh]

theorem takeNB_dropNB (s : List Char) : takeNB s ++ dropNB s = s := by
  induction s with
  | nil => rfl
  | cons c cs ih =>
    by_cases h : c = '\x7d'
    · simp [takeNB, dropNB, h]
    · simp [takeNB, dropNB, h, ih]

theorem brace_not_mem_takeNB (s : List Char) : '\x7d' ∉ takeNB s := by
  induction s with
  | nil => simp [takeNB]
  | cons c cs ih =>
    by_cases h : c = '\x7d'
    · simp [takeNB, h]
    · simp only [takeNB, if_neg h, List.mem_cons]
      push_neg
      exact ⟨fun he => h he.symm, ih⟩

theorem takeNB_append {a : List Char} (h : '\x7d' ∉ a) (r : List Char) :
    takeNB (a ++ '\x7d' :: r) = a := by
  induction a with
  | nil => simp [takeNB]
  | cons c cs ih =>
    have hc : c ≠ '\x7d' := fun he => h (by simp [he])
    simp [takeNB, hc, ih (fun hm => h (List.mem_cons_of_mem _ hm))]

theorem dropNB_append {a : List Char} (h : '\x7d' ∉ a) (r : List Char) :
    dropNB (a ++ '\x7d' :: r) = '\x7d' :: r := by
  induction a with
  | nil => simp [dropNB]
  | cons c cs ih =>
    have hc : c ≠ '\x7d' := fun he => h (by simp [he])
    simp [dropNB, hc, ih (fun hm => h (List.mem_cons_of_mem _ hm))]

theorem matchClr_nil : matchClr [] = none := rfl

theorem expectCB_sound {s r : List Char} (h : expectCB s = some r) : s = '\x7d' :: r := by
  cases s with
  | nil => simp [expectCB] at h
  | cons c t =>
    by_cases hc : c = '\x7d'
    · simp only [expectCB, if_pos hc, Option.some.injEq] at h
      rw [hc, h]
    · simp [expectCB, hc] at h

theorem expectOB_sound {s r : List Char} (h : expectOB s = some r) : s = '\x7b' :: r := by
  cases s with
  | nil => simp [expectOB] at h
  | cons c t =>
    by_cases hc : c = '\x7b'
    · simp only [expectOB, if_pos hc, Option.some.injEq] at h
      rw [hc, h]
    · simp [expectOB, hc] at h

theorem capNB_sound {s c r : List Char} (h : capNB s = some (c, r)) :
    s = c ++ '\x7d' :: r ∧ c ≠ [] ∧ '\x7d' ∉ c := by
  simp only [capNB] at h
  split at h
  · simp at h
  next hct =>
    split at h
    · simp at h
    next r' hd =>
      simp only [Option.some.injEq, Prod.mk.injEq] at h
      obtain ⟨h1, h2⟩ := h
      have hdb : dropNB s = '\x7d' :: r := by rw [expectCB_sound hd, h2]
      refine ⟨?_, by rw [← h1]; exact hct, by rw [← h1]; exact brace_not_mem_takeNB s⟩
      rw [← h1, ← hdb, takeNB_dropNB]

theorem capNB_complete {c : List Char} (hc : c ≠ []) (hcb : '\x7d' ∉ c) (r : List Char) :
    capNB (c ++ '\x7d' :: r) = some (c, r) := by
  simp [capNB, takeNB_append hcb, dropNB_append hcb, hc, expectCB]

theorem matchClr_sound {s n c r : List Char} (h : matchClr s = some (n, c, r)) :
    s = wrapAnn n c ++ r ∧ n ≠ [] ∧ '\x7d' ∉ n ∧ c ≠ [] ∧ '\x7d' ∉ c := by
  unfold matchClr at h
  split at h
  · simp at h
  next r0 hd =>
    split at h
    · simp at h
    next nm r1 h1 =>
      split at h
      · simp at h
      next r2 h2 =>
        split at h
        · simp at h
        next ct r4 h3 =>
          simp only [Option.some.injEq, Prod.mk.injEq] at h
          obtain ⟨hn1, hc1, hr1⟩ := h
          obtain ⟨hr0, hnm, hnmb⟩ := capNB_sound h1
          obtain ⟨hr2, hct, hctb⟩ := capNB_sound h3
          subst hn1 hc1 hr1
          refine ⟨?_, hnm, hnmb, hct, hctb⟩
          rw [(dropLit_iff _ _ _).mp hd, hr0, expectOB_sound h2, hr2, wrapAnn]
          simp

theorem matchClr_complete {n c : List Char} (hn : n ≠ []) (hnb : '\x7d' ∉ n)
    (hc : c ≠ []) (hcb : '\x7d' ∉ c) (r : List Char) :
    matchClr (wrapAnn n c ++ r) = some (n, c, r) := by
  have h1 : dropLit clrHead (wrapAnn n c ++ r) =
      some (n ++ '\x7d' :: '\x7b' :: (c ++ '\x7d' :: r)) := by
    rw [dropLit_iff]; simp [wrapAnn]
  have h2 : capNB (n ++ '\x7d' :: '\x7b' :: (c ++ '\x7d' :: r)) =
      some (n, '\x7b' :: (c ++ '\x7d' :: r)) := capNB_complete hn hnb _
  have h3 : capNB (c ++ '\x7d' :: r) = some (c, r) := capNB_complete hc hcb r
  simp [matchClr, h1, h2, h3, expectOB]

theorem matchClr_rest_length {s n c r : List Char} (h : matchClr s = some (n, c, r)) :
    r.length < s.length := by
  obtain ⟨hs, -, -, -, -⟩ := matchClr_sound h
  have hw : (wrapAnn n c).length = 8 + n.length + c.length := by
    simp [wrapAnn, clrHead, lc]
    omega
  rw [hs]
  simp [hw]

/-! ### The interpolated-name pattern -/

theorem matchNameChar_self (c : Char) : matchNameChar c c = true := by
  unfold matchNameChar
  by_cases h : c = '.'
  · subst h; decide
  · simp [h]

theorem dropNamePat_self (N r : List Char) : dropNamePat N (N ++ r) = some r := by
  induction N with
  | nil => rfl
  | cons p ps ih => simp [dropNamePat, matchNameChar_self, ih]

theorem plainName_cons {p : Char} {ps : List Char} :
    plainName (p :: ps) = true ↔ p ∉ specials ∧ plainName ps = true := by
  simp [plainName]

theorem dropNamePat_plain {N : List Char} (hN : plainName N = true) (s : List Char) :
    dropNamePat N s = dropLit N s := by
  induction N generalizing s with
  | nil => rfl
  | cons p ps ih =>
    obtain ⟨hp, hps⟩ := plainName_cons.mp hN
    have hpd : p ≠ '.' := fun he => hp (by rw [he]; decide)
    cases s with
    | nil => rfl
    | cons c cs =>
      by_cases hpc : p = c
      · subst hpc
        simp [dropNamePat, dropLit, matchNameChar, hpd, ih hps]
      · simp [dropNamePat, dropLit, matchNameChar, hpd, hpc, fun hh : c = p => hpc hh.symm,
          if_neg (fun hh : c = p => hpc hh.symm)]

theorem matchClrName_eq_lit {N : List Char} (hN : plainName N = true) (s : List Char) :
    matchClrName N s = matchClrLit N s := by
  simp only [matchClrName, matchClrLit, dropNamePat_plain hN]

theorem matchClrLit_sound {N s c r : List Char} (h : matchClrLit N s = some (c, r)) :
    s = wrapAnn N c ++ r ∧ c ≠ [] ∧ '\x7d' ∉ c := by
  unfold matchClrLit at h
  split at h
  · simp at h
  next r0 hd =>
    split at h
    · simp at h
    next r1 h1 =>
      split at h
      · simp at h
      next r1' h2 =>
        split at h
        · simp at h
        next r2 h3 =>
          split at h
          · simp at h
          next ct r4 h4 =>
            simp only [Option.some.injEq, Prod.mk.injEq] at h
            obtain ⟨hc1, hr1⟩ := h
            obtain ⟨hr2, hct, hctb⟩ := capNB_sound h4
            subst hc1 hr1
            refine ⟨?_, hct, hctb⟩
            rw [(dropLit_iff _ _ _).mp hd, (dropLit_iff _ _ _).mp h1,
              expectCB_sound h2, expectOB_sound h3, hr2, wrapAnn]
            simp

theorem matchClrLit_complete {c : List Char} (N : List Char) (hc : c ≠ [])
    (hcb : '\x7d' ∉ c) (r : List Char) :
    matchClrLit N (wrapAnn N c ++ r) = some (c, r) := by
  have h1 : dropLit clrHead (wrapAnn N c ++ r) =
      some (N ++ '\x7d' :: '\x7b' :: (c ++ '\x7d' :: r)) := by
    rw [dropLit_iff]; simp [wrapAnn]
  have h2 : dropLit N (N ++ '\x7d' :: '\x7b' :: (c ++ '\x7d' :: r)) =
      some ('\x7d' :: '\x7b' :: (c ++ '\x7d' :: r)) := by rw [dropLit_iff]
  have h3 : capNB (c ++ '\x7d' :: r) = some (c, r) := capNB_complete hc hcb r
  simp [matchClrLit, h1, h2, h3, expectCB, expectOB]

theorem matchClrName_complete_self {c : List Char} (N : List Char) (hc : c ≠ [])
    (hcb : '\x7d' ∉ c) (r : List Char) :
    matchClrName N (wrapAnn N c ++ r) = some (c, r) := by
  have h1 : dropLit clrHead (wrapAnn N c ++ r) =
      some (N ++ '\x7d' :: '\x7b' :: (c ++ '\x7d' :: r)) := by
    rw [dropLit_iff]; simp [wrapAnn]
  have h2 : dropNamePat N (N ++ '\x7d' :: '\x7b' :: (c ++ '\x7d' :: r)) =
      some ('\x7d' :: '\x7b' :: (c ++ '\x7d' :: r)) := dropNamePat_self N _
  have h3 : capNB (c ++ '\x7d' :: r) = some (c, r) := capNB_complete hc hcb r
  simp [matchClrName, h1, h2, h3, expectCB, expectOB]

theorem dropNamePat_length {N s r : List Char} (h : dropNamePat N s = some r) :
    s.length = N.length + r.length := by
  induction N generalizing s with
  | nil => simp [dropNamePat] at h; simp [h]
  | cons p ps ih =>
    cases s with
    | nil => simp [dropNamePat] at h
    | cons c cs =>
      by_cases hm : matchNameChar p c
      · simp only [dropNamePat, if_pos hm] at h
        simp [ih h]
        omega
      · simp [dropNamePat, hm] at h

theorem matchClrName_rest_length {N s c r : List Char}
    (h : matchClrName N s = some (c, r)) : r.length < s.length := by
  unfold matchClrName at h
  split at h
  · simp at h
  next r0 hd =>
    split at h
    · simp at h
    next r1 h1 =>
      split at h
      · simp at h
      next r1' h2 =>
        split at h
        · simp at h
        next r2 h3 =>
          split at h
          · simp at h
          next ct r4 h4 =>
            simp only [Option.some.injEq, Prod.mk.injEq] at h
            obtain ⟨hc1, hr1⟩ := h
            obtain ⟨hr2, hct, -⟩ := capNB_sound h4
            have e0 : s = clrHead ++ r0 := (dropLit_iff _ _ _).mp hd
            have e1 : r0.length = N.length + r1.length := dropNamePat_length h1
            have e2 : r1 = '\x7d' :: r1' := expectCB_sound h2
            have e3 : r1' = '\x7b' :: r2 := expectOB_sound h3
            have e4 : r2.length = ct.length + 1 + r4.length := by
              rw [hr2]; simp; omega
            have hctl : 1 ≤ ct.length := by
              cases ct with
              | nil => exact absurd rfl hct
              | cons x xs => simp
            subst hc1 hr1
            rw [e0]
            simp [e1, e2, e3, e4]
            omega

/-- A term name extracted by the global pattern also matches its own
name-keyed pattern at the same position. -/
theorem matchClrName_of_matchClr {s n c r : List Char}
    (h : matchClr s = some (n, c, r)) : matchClrName n s = some (c, r) := by
  obtain ⟨hs, -, -, hc, hcb⟩ := matchClr_sound h
  rw [hs]
  exact matchClrName_complete_self n hc hcb r

/-! ### Unfolding the fueled scanners -/

theorem extractF_congr (cm : List (List Char × List Char)) :
    ∀ {f g : Nat} {s : List Char} (k : Nat), s.length ≤ f → s.length ≤ g →
      extractF cm f s k = extractF cm g s k := by
  intro f
  induction f with
  | zero =>
    intro g s k hf _
    have hs : s = [] := List.eq_nil_of_length_eq_zero (Nat.le_zero.mp hf)
    subst hs
    cases g with
    | zero => rfl
    | succ g => rfl
  | succ f ih =>
    intro g s k hf hg
    cases g with
    | zero =>
      have hs : s = [] := List.eq_nil_of_length_eq_zero (Nat.le_zero.mp hg)
      subst hs; rfl
    | succ g =>
      cases s with
      | nil => rfl
      | cons a t =>
        cases hm : matchClr (a :: t) with
        | some x =>
          obtain ⟨n, c, r⟩ := x
          have hr := matchClr_rest_length hm
          simp only [List.length_cons] at hf hg hr
          simp only [extractF, hm]
          rw [ih (g := g) (s := r) (k + 1) (by omega) (by omega)]
        | none =>
          simp only [List.length_cons] at hf hg
          simp only [extractF, hm]
          exact ih (g := g) (s := t) k (by omega) (by omega)

theorem extractFrom_nil (cm : List (List Char × List Char)) (k : Nat) :
    extractFrom cm [] k = [] := rfl

theorem extractFrom_match {s n c r : List Char} (cm : List (List Char × List Char)) (k : Nat)
    (h : matchClr s = some (n, c, r)) :
    extractFrom cm s k = ⟨n, c, resolveColor cm n k⟩ :: extractFrom cm r (k + 1) := by
  cases s with
  | nil => rw [matchClr_nil] at h; exact absurd h (by simp)
  | cons a t =>
    show extractF cm (t.length + 1) (a :: t) k = _
    simp only [extractF, h]
    have hr := matchClr_rest_length h
    simp only [List.length_cons] at hr
    exact congrArg _ (extractF_congr cm (k + 1) (by omega) le_rfl)

theorem extractFrom_skip {a : Char} {t : List Char} (cm : List (List Char × List Char))
    (k : Nat) (h : matchClr (a :: t) = none) :
    extractFrom cm (a :: t) k = extractFrom cm t k := by
  show extractF cm (t.length + 1) (a :: t) k = extractF cm t.length t k
  simp only [extractF, h]

theorem replF_congr (N : List Char) (emit : List Char → List Char) :
    ∀ {f g : Nat} {s : List Char}, s.length ≤ f → s.length ≤ g →
      replF N emit f s = replF N emit g s := by
  intro f
  induction f with
  | zero =>
    intro g s hf _
    have hs : s = [] := List.eq_nil_of_length_eq_zero (Nat.le_zero.mp hf)
    subst hs
    cases g with
    | zero => rfl
    | succ g => rfl
  | succ f ih =>
    intro g s hf hg
    cases g with
    | zero =>
      have hs : s = [] := List.eq_nil_of_length_eq_zero (Nat.le_zero.mp hg)
      subst hs; rfl
    | succ g =>
      cases s with
      | nil => rfl
      | cons a t =>
        cases hm : matchClrName N (a :: t) with
        | some x =>
          obtain ⟨c, r⟩ := x
          have hr := matchClrName_rest_length hm
          simp only [List.length_cons] at hf hg hr
          simp only [replF, hm]
          rw [ih (g := g) (s := r) (by omega) (by omega)]
        | none =>
          simp only [List.length_cons] at hf hg
          simp only [replF, hm]
          rw [ih (g := g) (s := t) (by omega) (by omega)]

theorem replaceClrName_nil (N : List Char) (emit : List Char → List Char) :
    replaceClrName N emit [] = [] := rfl

theorem replaceClrName_match {N s c r : List Char} (emit : List Char → List Char)
    (h : matchClrName N s = some (c, r)) :
    replaceClrName N emit s = emit c ++ replaceClrName N emit r := by
  cases s with
  | nil => simp [matchClrName, dropLit, clrHead, lc] at h
  | cons a t =>
    show replF N emit (t.length + 1) (a :: t) = _
    simp only [replF, h]
    have hr := matchClrName_rest_length h
    simp only [List.length_cons] at hr
    exact congrArg _ (replF_congr N emit (by omega) le_rfl)

theorem replaceClrName_skip {N : List Char} {a : Char} {t : List Char}
    (emit : List Char → List Char) (h : matchClrName N (a :: t) = none) :
    replaceClrName N emit (a :: t) = a :: replaceClrName N emit t := by
  show replF N emit (t.length + 1) (a :: t) = _
  simp only [replF, h]
  rfl

theorem renderF_congr (cm : List (List Char × List Char)) :
    ∀ {f g : Nat} {s : List Char}, s.length ≤ f → s.length ≤ g →
      renderF cm f s = renderF cm g s := by
  intro f
  induction f with
  | zero =>
    intro g s hf _
    have hs : s = [] := List.eq_nil_of_length_eq_zero (Nat.le_zero.mp hf)
    subst hs
    cases g with
    | zero => rfl
    | succ g => rfl
  | succ f ih =>
    intro g s hf hg
    cases g with
    | zero =>
      have hs : s = [] := List.eq_nil_of_length_eq_zero (Nat.le_zero.mp hg)
      subst hs; rfl
    | succ g =>
      cases s with
      | nil => rfl
      | cons a t =>
        cases hm : matchClr (a :: t) with
        | some x =>
          obtain ⟨n, c, r⟩ := x
          have hr := matchClr_rest_length hm
          simp only [List.length_cons] at hf hg hr
          simp only [renderF, hm]
          rw [ih (g := g) (s := r) (by omega) (by omega)]
        | none =>
          simp only [List.length_cons] at hf hg
          simp only [renderF, hm]
          rw [ih (g := g) (s := t) (by omega) (by omega)]

theorem toRenderable_nil (cm : List (List Char × List Char)) : toRenderable cm [] = [] := rfl

theorem toRenderable_match {s n c r : List Char} (cm : List (List Char × List Char))
    (h : matchClr s = some (n, c, r)) :
    toRenderable cm s =
      lc "\\textcolor\x7b" ++ renderColor cm n ++ '\x7d' :: '\x7b' :: (c ++ '\x7d' :: toRenderable cm r) := by
  cases s with
  | nil => rw [matchClr_nil] at h; exact absurd h (by simp)
  | cons a t =>
    show renderF cm (t.length + 1) (a :: t) = _
    simp only [renderF, h]
    have hr := matchClr_rest_length h
    simp only [List.length_cons] at hr
    have := renderF_congr cm (f := t.length) (g := r.length) (s := r) (by omega) le_rfl
    rw [this]
    rfl

theorem toRenderable_skip {a : Char} {t : List Char} (cm : List (List Char × List Char))
    (h : matchClr (a :: t) = none) :
    toRenderable cm (a :: t) = a :: toRenderable cm t := by
  show renderF cm (t.length + 1) (a :: t) = _
  simp only [renderF, h]
  rfl

/-! ### Scan-level lemmas -/

theorem matchClrName_nil (N : List Char) : matchClrName N [] = none := rfl

theorem allNoneName_cons {N : List Char} {a : Char} {t : List Char} :
    allNoneName N (a :: t) = true ↔ matchClrName N (a :: t) = none ∧ allNoneName N t = true := by
  simp [allNoneName, Option.isNone_iff_eq_none]

theorem allNoneName_append_right {N A B : List Char} (h : allNoneName N (A ++ B) = true) :
    allNoneName N B = true := by
  induction A with
  | nil => simpa using h
  | cons a t ih => exact ih (allNoneName_cons.mp (by simpa using h)).2

theorem replaceClrName_id {N : List Char} (emit : List Char → List Char) :
    ∀ {s : List Char}, allNoneName N s = true → replaceClrName N emit s = s := by
  intro s
  induction s with
  | nil => intro _; rfl
  | cons a t ih =>
    intro h
    obtain ⟨h1, h2⟩ := allNoneName_cons.mp h
    rw [replaceClrName_skip emit h1, ih h2]

theorem allNoneName_false_of_match {N s : List Char} {x : List Char × List Char}
    (h : matchClrName N s = some x) : allNoneName N s ≠ true := by
  cases s with
  | nil => rw [matchClrName_nil] at h; exact absurd h (by simp)
  | cons a t =>
    intro hall
    rw [(allNoneName_cons.mp hall).1] at h
    exact absurd h (by simp)

theorem extractF_name_match {cm : List (List Char × List Char)} {N : List Char} :
    ∀ {f : Nat} {s : List Char} {k : Nat} {t : Tm}, t ∈ extractF cm f s k → t.name = N →
      allNoneName N s ≠ true := by
  intro f
  induction f with
  | zero => intro s k t ht; simp [extractF] at ht
  | succ f ih =>
    intro s k t ht hN
    cases hm : matchClr s with
    | some x =>
      obtain ⟨n, c, r⟩ := x
      simp only [extractF, hm, List.mem_cons] at ht
      rcases ht with rfl | ht
      · have hn : n = N := hN
        exact allNoneName_false_of_match (hn ▸ matchClrName_of_matchClr hm)
      · intro hall
        obtain ⟨hs, -, -, -, -⟩ := matchClr_sound hm
        exact ih ht hN (allNoneName_append_right (N := N) (A := wrapAnn n c) (hs ▸ hall))
    | none =>
      cases s with
      | nil => simp [extractF, hm] at ht
      | cons a u =>
        simp only [extractF, hm] at ht
        intro hall
        exact ih ht hN (allNoneName_cons.mp hall).2

theorem allContentIs_head {N C : List Char} {a : Char} {t c r : List Char}
    (h : allContentIs N C (a :: t) = true)
    (hm : matchClrName N (a :: t) = some (c, r)) : c = C := by
  simp only [allContentIs, hm, Bool.and_eq_true, decide_eq_true_eq] at h
  exact h.1

theorem allContentIs_tail {N C : List Char} {a : Char} {t : List Char}
    (h : allContentIs N C (a :: t) = true) : allContentIs N C t = true := by
  simp only [allContentIs, Bool.and_eq_true] at h
  exact h.2

theorem allContentIs_append_right {N C A B : List Char}
    (h : allContentIs N C (A ++ B) = true) : allContentIs N C B = true := by
  induction A with
  | nil => simpa using h
  | cons a t ih => exact ih (allContentIs_tail (by simpa using h))

theorem replF_content_id {N C : List Char} (hp : plainName N = true) :
    ∀ {f : Nat} {s : List Char}, s.length ≤ f → allContentIs N C s = true →
      replF N (fun _ => wrapAnn N C) f s = s := by
  intro f
  induction f with
  | zero =>
    intro s hf _
    have hs : s = [] := List.eq_nil_of_length_eq_zero (Nat.le_zero.mp hf)
    subst hs; rfl
  | succ f ih =>
    intro s hf hall
    cases s with
    | nil => rfl
    | cons a t =>
      cases hm : matchClrName N (a :: t) with
      | some x =>
        obtain ⟨c, r⟩ := x
        simp only [replF, hm]
        have hc : c = C := allContentIs_head hall hm
        have hml : matchClrLit N (a :: t) = some (c, r) := by
          rw [← matchClrName_eq_lit hp]; exact hm
        obtain ⟨hs, -, -⟩ := matchClrLit_sound hml
        have hr := matchClrName_rest_length hm
        simp only [List.length_cons] at hf hr
        rw [ih (by omega) (allContentIs_append_right (A := wrapAnn N c) (hs ▸ hall))]
        rw [hs, hc]
      | none =>
        simp only [replF, hm]
        simp only [List.length_cons] at hf
        rw [ih (by omega) (allContentIs_tail hall)]

theorem updateTerm_content_id {M N C : List Char} (hp : plainName N = true)
    (hall : allContentIs N C M = true) : updateTerm M N C = M :=
  replF_content_id hp le_rfl hall

theorem allNoneClr_cons {a : Char} {t : List Char} :
    allNoneClr (a :: t) = true ↔ matchClr (a :: t) = none ∧ allNoneClr t = true := by
  simp [allNoneClr, Option.isNone_iff_eq_none]

theorem toRenderable_id {cm : List (List Char × List Char)} :
    ∀ {s : List Char}, allNoneClr s = true → toRenderable cm s = s := by
  intro s
  induction s with
  | nil => intro _; rfl
  | cons a t ih =>
    intro h
    obtain ⟨h1, h2⟩ := allNoneClr_cons.mp h
    rw [toRenderable_skip cm h1, ih h2]

theorem extractFrom_empty_iff {cm : List (List Char × List Char)} {s : List Char} {k : Nat} :
    extractFrom cm s k = [] ↔ allNoneClr s = true := by
  induction s generalizing k with
  | nil => simp [extractFrom_nil, allNoneClr]
  | cons a t ih =>
    cases hm : matchClr (a :: t) with
    | some x =>
      obtain ⟨n, c, r⟩ := x
      rw [extractFrom_match cm k hm]
      simp [allNoneClr_cons, hm]
    | none =>
      rw [extractFrom_skip cm k hm, allNoneClr_cons]
      simp [hm, ih]

theorem inertClr_cons {a : Char} {t B : List Char} :
    inertClr (a :: t) B = true ↔ matchClr (a :: (t ++ B)) = none ∧ inertClr t B = true := by
  simp [inertClr, Option.isNone_iff_eq_none]

theorem extractFrom_append_inert {cm : List (List Char × List Char)} {A B : List Char}
    (k : Nat) (h : inertClr A B = true) :
    extractFrom cm (A ++ B) k = extractFrom cm B k := by
  induction A with
  | nil => simp
  | cons a t ih =>
    obtain ⟨h1, h2⟩ := inertClr_cons.mp h
    rw [List.cons_append, extractFrom_skip cm k h1, ih h2]

theorem toRenderable_append_inert {cm : List (List Char × List Char)} {A B : List Char}
    (h : inertClr A B = true) :
    toRenderable cm (A ++ B) = A ++ toRenderable cm B := by
  induction A with
  | nil => simp
  | cons a t ih =>
    obtain ⟨h1, h2⟩ := inertClr_cons.mp h
    rw [List.cons_append, toRenderable_skip cm h1, ih h2, List.cons_append]

theorem extractF_pairs_congr {cm : List (List Char × List Char)} :
    ∀ {f : Nat} {s : List Char} (k k' : Nat),
      pairsOf (extractF cm f s k) = pairsOf (extractF cm f s k') := by
  intro f
  induction f with
  | zero => intro s k k'; rfl
  | succ f ih =>
    intro s k k'
    cases hm : matchClr s with
    | some x =>
      obtain ⟨n, c, r⟩ := x
      simp only [extractF, hm, pairsOf, List.map_cons]
      have := ih (s := r) (k + 1) (k' + 1)
      simp only [pairsOf] at this
      rw [this]
    | none =>
      cases s with
      | nil => rfl
      | cons a t =>
        simp only [extractF, hm]
        exact ih (s := t) k k'

theorem extractFrom_pairs_congr (cm : List (List Char × List Char)) (s : List Char)
    (k k' : Nat) : pairsOf (extractFrom cm s k) = pairsOf (extractFrom cm s k') :=
  extractF_pairs_congr k k'

theorem extractFrom_length_congr (cm : List (List Char × List Char)) (s : List Char)
    (k k' : Nat) : (extractFrom cm s k).length = (extractFrom cm s k').length := by
  have h := congrArg List.length (extractFrom_pairs_congr cm s k k')
  simpa [pairsOf] using h

theorem extractF_color_index (cm : List (List Char × List Char)) :
    ∀ {f : Nat} {s : List Char} {k i : Nat}, i < (extractF cm f s k).length →
      ((extractF cm f s k).getD i ⟨[], [], []⟩).color
        = resolveColor cm ((extractF cm f s k).getD i ⟨[], [], []⟩).name (k + i) := by
  intro f
  induction f with
  | zero => intro s k i h; simp [extractF] at h
  | succ f ih =>
    intro s k i h
    cases hm : matchClr s with
    | some x =>
      obtain ⟨n, c, r⟩ := x
      simp only [extractF, hm] at h ⊢
      cases i with
      | zero => simp
      | succ i =>
        simp only [List.getD_cons_succ]
        have hlt : i < (extractF cm f r (k + 1)).length := by
          simpa using h
        have := ih (s := r) (k := k + 1) (i := i) hlt
        rw [this]
        congr 1
        omega
    | none =>
      cases s with
      | nil =>
        have he : extractF cm (f + 1) ([] : List Char) k = [] := rfl
        rw [he] at h
        simp at h
      | cons a t =>
        simp only [extractF, hm] at h ⊢
        exact ih h

/-! ### The synthesized term name `term<k+1>` -/

theorem digitChar_ne_brace (n : Nat) : Nat.digitChar n ≠ '\x7d' := by
  rw [Nat.digitChar]
  by_cases h0 : n = 0 <;> simp [h0]
  by_cases h1 : n = 1 <;> simp [h1]
  by_cases h2 : n = 2 <;> simp [h2]
  by_cases h3 : n = 3 <;> simp [h3]
  by_cases h4 : n = 4 <;> simp [h4]
  by_cases h5 : n = 5 <;> simp [h5]
  by_cases h6 : n = 6 <;> simp [h6]
  by_cases h7 : n = 7 <;> simp [h7]
  by_cases h8 : n = 8 <;> simp [h8]
  by_cases h9 : n = 9 <;> simp [h9]
  by_cases ha : n = 0xa <;> simp [ha]
  by_cases hb : n = 0xb <;> simp [hb]
  by_cases hc : n = 0xc <;> simp [hc]
  by_cases hd : n = 0xd <;> simp [hd]
  by_cases he : n = 0xe <;> simp [he]
  by_cases hf : n = 0xf <;> simp [hf]

theorem toDigitsCore_ne_brace (b : Nat) :
    ∀ (fuel n : Nat) (acc : List Char), (∀ c ∈ acc, c ≠ '\x7d') →
      ∀ c ∈ Nat.toDigitsCore b fuel n acc, c ≠ '\x7d' := by
  intro fuel
  induction fuel with
  | zero => intro n acc hacc c hc; exact hacc c hc
  | succ fuel ih =>
    intro n acc hacc c hc
    simp only [Nat.toDigitsCore] at hc
    split at hc
    · rcases List.mem_cons.mp hc with rfl | hc
      · exact digitChar_ne_brace _
      · exact hacc c hc
    · refine ih (n / b) (Nat.digitChar (n % b) :: acc) ?_ c hc
      intro d hd
      rcases List.mem_cons.mp hd with rfl | hd
      · exact digitChar_ne_brace _
      · exact hacc d hd

theorem toDigitsCore_length (b : Nat) :
    ∀ (fuel n : Nat) (acc : List Char),
      acc.length ≤ (Nat.toDigitsCore b fuel n acc).length := by
  intro fuel
  induction fuel with
  | zero => intro n acc; exact le_rfl
  | succ fuel ih =>
    intro n acc
    simp only [Nat.toDigitsCore]
    split
    · simp
    · calc acc.length ≤ (Nat.digitChar (n % b) :: acc).length := by simp
        _ ≤ _ := ih (n / b) _

theorem natChars_ne_brace (n : Nat) : '\x7d' ∉ natChars n := by
  intro hm
  have he : natChars n = Nat.toDigitsCore 10 (n + 1) n [] := rfl
  rw [he] at hm
  exact toDigitsCore_ne_brace 10 (n + 1) n [] (by simp) '\x7d' hm rfl

theorem natChars_ne_nil (n : Nat) : natChars n ≠ [] := by
  have he : natChars n = Nat.toDigitsCore 10 (n + 1) n [] := rfl
  rw [he]
  simp only [Nat.toDigitsCore]
  split
  · simp
  · intro h
    have h1 := toDigitsCore_length 10 n (n / 10) [Nat.digitChar (n % 10)]
    rw [h] at h1
    simp at h1

theorem addTermName_ne_nil (k : Nat) : addTermName k ≠ [] := by
  intro h
  have hl := congrArg List.length h
  have h4 : (lc "term").length = 4 := rfl
  simp [addTermName, h4] at hl

theorem addTermName_ne_brace (k : Nat) : '\x7d' ∉ addTermName k := by
  intro hm
  rw [addTermName] at hm
  rcases List.mem_append.mp hm with h | h
  · have hh : '\x7d' ∉ lc "term" := by decide
    exact hh h
  · exact natChars_ne_brace (k + 1) h

/-! ### Helper lemmas for individual claims -/

theorem extractF_nonempty {cm : List (List Char × List Char)} :
    ∀ {f : Nat} {s : List Char} {k : Nat} {t : Tm}, t ∈ extractF cm f s k →
      t.name ≠ [] ∧ t.content ≠ [] := by
  intro f
  induction f with
  | zero => intro s k t ht; simp [extractF] at ht
  | succ f ih =>
    intro s k t ht
    cases hm : matchClr s with
    | some x =>
      obtain ⟨n, c, r⟩ := x
      simp only [extractF, hm, List.mem_cons] at ht
      rcases ht with rfl | ht
      · obtain ⟨-, hn, -, hc, -⟩ := matchClr_sound hm
        exact ⟨hn, hc⟩
      · exact ih ht
    | none =>
      cases s with
      | nil => simp [extractF, hm] at ht
      | cons a u =>
        simp only [extractF, hm] at ht
        exact ih ht

theorem allNoneName_of_not_occ {N M : List Char} (hp : plainName N = true)
    (h : hasOccLit N M = false) : allNoneName N M = true := by
  induction M with
  | nil => rfl
  | cons a t ih =>
    simp only [hasOccLit, Bool.or_eq_false_iff] at h
    obtain ⟨h1, h2⟩ := h
    refine allNoneName_cons.mpr ⟨?_, ih h2⟩
    rw [matchClrName_eq_lit hp]
    exact Option.not_isSome_iff_eq_none.mp (by simp [h1])

/-! ### The claims -/

/-- Claim C1 (corrected), counterexample: with an empty colorMap the render
substitution does not produce the palette colors that the extraction
resolves for `a` and `b`; it produces the neutral fallback instead. -/
theorem c1_counterexample :
    toRenderable [] (lc "x + \\clr\x7ba\x7d\x7by\x7d = \\clr\x7bb\x7d\x7bz\x7d")
      ≠ lc "x + \\textcolor\x7b#ef4444\x7d\x7by\x7d = \\textcolor\x7b#3b82f6\x7d\x7bz\x7d" := by
  decide

/-- Claim C1 (amended): extracting `"x + \clr{a}{y} = \clr{b}{z}"` with an
empty colorMap yields exactly the terms (a, y, palette[0]) and
(b, z, palette[1]) in that order; transcoding the same markup with that
(empty) colorMap state wraps both contents in the fixed fallback color
`#888888`, because the palette colors resolved during extraction are never
written back into the colorMap. -/
theorem c1_amended :
    extractTerms [] (lc "x + \\clr\x7ba\x7d\x7by\x7d = \\clr\x7bb\x7d\x7bz\x7d")
      = [⟨lc "a", lc "y", presetAt 0⟩, ⟨lc "b", lc "z", presetAt 1⟩] ∧
    presetAt 0 = lc "#ef4444" ∧ presetAt 1 = lc "#3b82f6" ∧
    toRenderable [] (lc "x + \\clr\x7ba\x7d\x7by\x7d = \\clr\x7bb\x7d\x7bz\x7d")
      = lc "x + \\textcolor\x7b#888888\x7d\x7by\x7d = \\textcolor\x7b#888888\x7d\x7bz\x7d" := by
  refine ⟨by decide, by decide, by decide, by decide⟩

/-- Claim C2 (corrected), counterexample: with colorMap pinning `a`, the
unknown term `b` is the first unknown discovered, so the claim assigns it
palette[0]; the code assigns palette[1], because the fallback index counts
all terms found so far, known or not. -/
theorem c2_counterexample :
    extractTerms [(lc "a", lc "#111111")]
        (lc "\\clr\x7ba\x7d\x7bx\x7d\\clr\x7bb\x7d\x7by\x7d")
      = [⟨lc "a", lc "x", lc "#111111"⟩, ⟨lc "b", lc "y", presetAt 1⟩] ∧
    presetAt 1 ≠ presetAt 0 := by
  refine ⟨by decide, by decide⟩

/-- Claim C2 (amended): the i-th extracted term's color is
`colorMap[name]` when the name is present with a non-empty value, and
otherwise the palette color at index i — the ordinal position of the term
among all terms discovered so far in this scan (not just the unknown ones),
cycling modulo the palette length (`resolveColor` is exactly that lookup
with `presetAt i` as fallback). -/
theorem c2_amended (cm : List (List Char × List Char)) (s : List Char) (i : Nat)
    (h : i < (extractTerms cm s).length) :
    ((extractTerms cm s).getD i ⟨[], [], []⟩).color
      = resolveColor cm ((extractTerms cm s).getD i ⟨[], [], []⟩).name i := by
  have hh := extractF_color_index cm (f := s.length) (s := s) (k := 0) (i := i) h
  simpa using hh

/-- Claim C2 witness. -/
theorem c2_witness :
    1 < (extractTerms [(lc "a", lc "#111111")]
        (lc "\\clr\x7ba\x7d\x7bx\x7d\\clr\x7bb\x7d\x7by\x7d")).length ∧
    ((extractTerms [(lc "a", lc "#111111")]
        (lc "\\clr\x7ba\x7d\x7bx\x7d\\clr\x7bb\x7d\x7by\x7d")).getD 1 ⟨[], [], []⟩).color
      = resolveColor [(lc "a", lc "#111111")]
          ((extractTerms [(lc "a", lc "#111111")]
            (lc "\\clr\x7ba\x7d\x7bx\x7d\\clr\x7bb\x7d\x7by\x7d")).getD 1 ⟨[], [], []⟩).name 1 :=
  ⟨by decide, c2_amended [(lc "a", lc "#111111")]
    (lc "\\clr\x7ba\x7d\x7bx\x7d\\clr\x7bb\x7d\x7by\x7d") 1 (by decide)⟩

/-- Claim C3 (code bug): the term name is interpolated into the regex
source unescaped, so a name containing a regex metacharacter matches
annotations with other names.  With markup `\clr{ab}{z}` and name `a.`
(distinct from `ab`), `updateTerm` rewrites the `ab` annotation to
`\clr{a.}{w}` and `removeTerm` strips it, although its name is not `a.`. -/
theorem c3_code_bug :
    updateTerm (lc "\\clr\x7bab\x7d\x7bz\x7d") (lc "a.") (lc "w")
      = lc "\\clr\x7ba.\x7d\x7bw\x7d" ∧
    removeTerm (lc "\\clr\x7bab\x7d\x7bz\x7d") (lc "a.") = lc "z" ∧
    (lc "a." : List Char) ≠ lc "ab" := by
  refine ⟨by decide, by decide, by decide⟩

/-- Claim C4 (corrected), counterexample: in
`\clr{a}{\clr{a}}{z}` the single scan-match is `\clr{a}{\clr{a}`
(content `\clr{a`); stripping its wrapper exposes the new occurrence
`\clr{a}{z}`, so extraction after `removeTerm` still yields a term named
`a`. -/
theorem c4_counterexample :
    removeTerm (lc "\\clr\x7ba\x7d\x7b\\clr\x7ba\x7d\x7d\x7bz\x7d") (lc "a")
      = lc "\\clr\x7ba\x7d\x7bz\x7d" ∧
    (extractTerms [] (removeTerm
        (lc "\\clr\x7ba\x7d\x7b\\clr\x7ba\x7d\x7d\x7bz\x7d") (lc "a"))).map Tm.name
      = [lc "a"] := by
  refine ⟨by decide, by decide⟩

/-- Claim C4 (amended): `removeTerm` replaces every scan-match
`\clr{N}{content}` by its bare content, and extraction of the result yields
no term named `N` provided the result contains no remaining match of the
name-`N` pattern — wrapper-stripping on nested annotation-like text can
expose new occurrences, which a single call does not strip. -/
theorem c4_amended (N : List Char) (cm : List (List Char × List Char)) :
    (∀ M, allNoneName N (removeTerm M N) = true →
      ∀ t ∈ extractTerms cm (removeTerm M N), t.name ≠ N) ∧
    (∀ c B, c ≠ [] → '\x7d' ∉ c →
      removeTerm (wrapAnn N c ++ B) N = c ++ removeTerm B N) := by
  constructor
  · intro M h t ht hN
    exact extractF_name_match ht hN h
  · intro c B hc hcb
    exact replaceClrName_match (fun x => x) (matchClrName_complete_self N hc hcb B)

/-- Claim C4 witness. -/
theorem c4_witness :
    allNoneName (lc "a")
        (removeTerm (lc "\\clr\x7bb\x7d\x7bx\x7d\\clr\x7ba\x7d\x7by\x7d") (lc "a")) = true ∧
    (⟨lc "b", lc "x", presetAt 0⟩ : Tm).name ≠ lc "a" ∧
    removeTerm (wrapAnn (lc "a") (lc "y") ++ lc "z") (lc "a") = lc "y" ++ removeTerm (lc "z") (lc "a") :=
  ⟨by decide,
    (c4_amended (lc "a") []).1 (lc "\\clr\x7bb\x7d\x7bx\x7d\\clr\x7ba\x7d\x7by\x7d") (by decide)
      ⟨lc "b", lc "x", presetAt 0⟩ (by decide),
    (c4_amended (lc "a") []).2 (lc "y") (lc "z") (by decide) (by decide)⟩

/-- Claim C5 (corrected), counterexample: in `\clr{x}{\clr{n}{c}` the name
`n` occurs exactly once as `\clr{n}{c}`, and `updateTerm` with the same
content leaves the markup unchanged; but extraction never yields a term
named `n`, because the earlier overlapping `\clr{x}{...}` match swallows
the occurrence.  The claim's conclusion fails. -/
theorem c5_counterexample :
    hasOccLit (lc "n") (lc "\\clr\x7bx\x7d\x7b\\clr\x7bn\x7d\x7bc\x7d") = true ∧
    updateTerm (lc "\\clr\x7bx\x7d\x7b\\clr\x7bn\x7d\x7bc\x7d") (lc "n") (lc "c")
      = lc "\\clr\x7bx\x7d\x7b\\clr\x7bn\x7d\x7bc\x7d" ∧
    (extractTerms [] (updateTerm
        (lc "\\clr\x7bx\x7d\x7b\\clr\x7bn\x7d\x7bc\x7d") (lc "n") (lc "c"))).map Tm.name
      = [lc "x"] ∧
    (lc "x" : List Char) ≠ lc "n" := by
  refine ⟨by decide, by decide, by decide, by decide⟩

/-- Claim C5 (amended): for a name free of regex-special characters and a
content without `$`, if every match of the name-`N` pattern in `M` already
has content exactly `C`, then `updateTerm M N C` is the identity and
re-extraction returns exactly the original terms.  The original claim's
stronger conclusion — that the term `(N, C)` itself re-extracts — fails
when the unique occurrence is swallowed by an earlier overlapping
annotation. -/
theorem c5_amended (M N C : List Char) (cm : List (List Char × List Char))
    (hp : plainName N = true) (_hd : '$' ∉ C) (hall : allContentIs N C M = true) :
    updateTerm M N C = M ∧ extractTerms cm (updateTerm M N C) = extractTerms cm M := by
  have h := updateTerm_content_id hp hall
  exact ⟨h, by rw [h]⟩

/-- Claim C5 witness. -/
theorem c5_witness :
    plainName (lc "a") = true ∧
    allContentIs (lc "a") (lc "y") (lc "x + \\clr\x7ba\x7d\x7by\x7d") = true ∧
    updateTerm (lc "x + \\clr\x7ba\x7d\x7by\x7d") (lc "a") (lc "y")
      = lc "x + \\clr\x7ba\x7d\x7by\x7d" :=
  ⟨by decide, by decide,
    (c5_amended (lc "x + \\clr\x7ba\x7d\x7by\x7d") (lc "a") (lc "y") []
      (by decide) (by decide) (by decide)).1⟩

/-- Claim C6 (corrected), counterexample: inserting at a cursor position
inside an existing annotation (markup `\clr{a}{b}`, one extracted term,
cursor offset 5) merges the wrapper with the surrounding text: the total
term count stays 1 instead of increasing, and no extracted term carries the
synthesized name `term2`. -/
theorem c6_counterexample :
    (extractTerms [] (lc "\\clr\x7ba\x7d\x7bb\x7d")).length = 1 ∧
    addTerm (lc "\\clr\x7ba\x7d\x7bb\x7d") 1 5 5
      = lc "\\clr\x7b\\clr\x7bterm2\x7d\x7btext\x7da\x7d\x7bb\x7d" ∧
    (extractTerms [] (addTerm (lc "\\clr\x7ba\x7d\x7bb\x7d") 1 5 5)).length = 1 ∧
    (extractTerms [] (addTerm (lc "\\clr\x7ba\x7d\x7bb\x7d") 1 5 5)).map Tm.name
      = [lc "\\clr\x7bterm2"] := by
  refine ⟨by decide, by decide, by decide, by decide⟩

/-- Claim C6 (amended): for a cursor insertion (empty selection, default
text `'text'`) at a boundary that splits the markup into `A ++ B` where `A`
contributes no annotation match — neither before nor after the insertion —
extraction of the result is exactly one new term `(term<k+1>, text)`
followed by the old terms, and the total count increases by exactly one.
In general an insertion point inside an existing annotation can merge with
surrounding text and fail to add a term. -/
theorem c6_amended (cm : List (List Char × List Char)) (A B : List Char) (k : Nat)
    (_hk : k = (extractTerms cm (A ++ B)).length)
    (h1 : inertClr A (wrapAnn (addTermName k) (lc "text") ++ B) = true)
    (h2 : inertClr A B = true) :
    pairsOf (extractTerms cm (addTerm (A ++ B) k A.length A.length))
        = (addTermName k, lc "text") :: pairsOf (extractTerms cm (A ++ B)) ∧
      (extractTerms cm (addTerm (A ++ B) k A.length A.length)).length
        = (extractTerms cm (A ++ B)).length + 1 := by
  have hM : addTerm (A ++ B) k A.length A.length
      = A ++ (wrapAnn (addTermName k) (lc "text") ++ B) := by
    simp [addTerm, List.take_left, List.drop_left, List.append_assoc]
  have hmW : matchClr (wrapAnn (addTermName k) (lc "text") ++ B)
      = some (addTermName k, lc "text", B) :=
    matchClr_complete (addTermName_ne_nil k) (addTermName_ne_brace k)
      (by decide) (by decide) B
  have e1 : extractTerms cm (addTerm (A ++ B) k A.length A.length)
      = ⟨addTermName k, lc "text", resolveColor cm (addTermName k) 0⟩ :: extractFrom cm B 1 := by
    rw [hM]
    show extractFrom cm (A ++ (wrapAnn (addTermName k) (lc "text") ++ B)) 0 = _
    rw [extractFrom_append_inert 0 h1, extractFrom_match cm 0 hmW]
  have e2 : extractTerms cm (A ++ B) = extractFrom cm B 0 := by
    show extractFrom cm (A ++ B) 0 = _
    rw [extractFrom_append_inert 0 h2]
  constructor
  · rw [e1, e2]
    simp only [pairsOf, List.map_cons]
    have hpc := extractFrom_pairs_congr cm B 1 0
    simp only [pairsOf] at hpc
    rw [hpc]
  · rw [e1, e2]
    simp only [List.length_cons]
    rw [extractFrom_length_congr cm B 1 0]

/-- Claim C6 witness. -/
theorem c6_witness :
    0 = (extractTerms [] (lc "x + " ++ lc " = 2")).length ∧
    inertClr (lc "x + ") (wrapAnn (addTermName 0) (lc "text") ++ lc " = 2") = true ∧
    inertClr (lc "x + ") (lc " = 2") = true ∧
    pairsOf (extractTerms []
        (addTerm (lc "x + " ++ lc " = 2") 0 (lc "x + ").length (lc "x + ").length))
      = (addTermName 0, lc "text") :: pairsOf (extractTerms [] (lc "x + " ++ lc " = 2")) ∧
    (extractTerms []
        (addTerm (lc "x + " ++ lc " = 2") 0 (lc "x + ").length (lc "x + ").length)).length
      = (extractTerms [] (lc "x + " ++ lc " = 2")).length + 1 := by
  have h := c6_amended [] (lc "x + ") (lc " = 2") 0 (by decide) (by decide) (by decide)
  exact ⟨by decide, by decide, by decide, h.1, h.2⟩

/-- Claim C7 (corrected), counterexample: on `\clr{a}{\clr{a}}{z}` the
first `removeTerm` produces `\clr{a}{z}` — stripping the wrapper exposed a
new occurrence — and the second call strips that too, so `removeTerm` is
not idempotent. -/
theorem c7_counterexample :
    removeTerm (lc "\\clr\x7ba\x7d\x7b\\clr\x7ba\x7d\x7d\x7bz\x7d") (lc "a")
      = lc "\\clr\x7ba\x7d\x7bz\x7d" ∧
    removeTerm (removeTerm (lc "\\clr\x7ba\x7d\x7b\\clr\x7ba\x7d\x7d\x7bz\x7d") (lc "a")) (lc "a")
      = lc "z" ∧
    removeTerm (removeTerm (lc "\\clr\x7ba\x7d\x7b\\clr\x7ba\x7d\x7d\x7bz\x7d") (lc "a")) (lc "a")
      ≠ removeTerm (lc "\\clr\x7ba\x7d\x7b\\clr\x7ba\x7d\x7d\x7bz\x7d") (lc "a") := by
  refine ⟨by decide, by decide, by decide⟩

/-- Claim C7 (amended): the second `removeTerm` call is a no-op whenever
the markup produced by the first call contains no remaining match of the
name-`N` pattern; stripping can expose new occurrences (nested
annotation-like text), and only then does a second call differ. -/
theorem c7_amended (M N : List Char)
    (h : allNoneName N (removeTerm M N) = true) :
    removeTerm (removeTerm M N) N = removeTerm M N :=
  replaceClrName_id (fun c => c) h

/-- Claim C7 witness. -/
theorem c7_witness :
    allNoneName (lc "a") (removeTerm (lc "x\\clr\x7ba\x7d\x7by\x7dz") (lc "a")) = true ∧
    removeTerm (removeTerm (lc "x\\clr\x7ba\x7d\x7by\x7dz") (lc "a")) (lc "a")
      = removeTerm (lc "x\\clr\x7ba\x7d\x7by\x7dz") (lc "a") :=
  ⟨by decide, c7_amended (lc "x\\clr\x7ba\x7d\x7by\x7dz") (lc "a") (by decide)⟩

/-- Claim C8 (corrected), counterexample: a name present in the colorMap
with an empty value is treated as absent by the JavaScript `||`, so the
emitted token is the fallback `#888888`, not `colorMap[name]`. -/
theorem c8_counterexample :
    lookupS [(lc "a", lc "")] (lc "a") = some (lc "") ∧
    toRenderable [(lc "a", lc "")] (lc "\\clr\x7ba\x7d\x7by\x7d")
      = lc "\\textcolor\x7b#888888\x7d\x7by\x7d" ∧
    toRenderable [(lc "a", lc "")] (lc "\\clr\x7ba\x7d\x7by\x7d")
      ≠ lc "\\textcolor\x7b\x7d\x7by\x7d" := by
  refine ⟨by decide, by decide, by decide⟩

/-- Claim C8 (amended): transcoding rewrites each scan-match
`\clr{name}{content}` into exactly `\textcolor{tok}{content}` where `tok`
is `colorMap[name]` when present with a non-empty value and the fixed
fallback `#888888` (distinct from every palette color) otherwise; text
contributing no match passes through unchanged, and markup whose
extraction is empty is returned identically.  Nested/overlapping
annotation text is rewritten only at the outermost match. -/
theorem c8_amended :
    (∀ (cm : List (List Char × List Char)) (s : List Char),
      extractTerms cm s = [] → toRenderable cm s = s) ∧
    (∀ (cm : List (List Char × List Char)) (n c B : List Char),
      n ≠ [] → '\x7d' ∉ n → c ≠ [] → '\x7d' ∉ c →
      toRenderable cm (wrapAnn n c ++ B)
        = lc "\\textcolor\x7b" ++ renderColor cm n ++ '\x7d' :: '\x7b' :: (c ++ '\x7d' :: toRenderable cm B)) ∧
    (∀ (cm : List (List Char × List Char)) (A B : List Char),
      inertClr A B = true → toRenderable cm (A ++ B) = A ++ toRenderable cm B) ∧
    (∀ (cm : List (List Char × List Char)) (n v : List Char),
      lookupS cm n = some v → v ≠ [] → renderColor cm n = v) ∧
    (∀ (cm : List (List Char × List Char)) (n : List Char),
      lookupS cm n = none ∨ lookupS cm n = some [] → renderColor cm n = lc "#888888") ∧
    (∀ p ∈ COLOR_PRESETS, p.value ≠ lc "#888888") := by
  refine ⟨?_, ?_, ?_, ?_, ?_, by decide⟩
  · intro cm s h
    exact toRenderable_id (extractFrom_empty_iff.mp h)
  · intro cm n c B hn hnb hc hcb
    rw [toRenderable_match cm (matchClr_complete hn hnb hc hcb B)]
  · intro cm A B h
    exact toRenderable_append_inert h
  · intro cm n v h hv
    simp [renderColor, h, hv]
  · intro cm n h
    rcases h with h | h <;> simp [renderColor, h]

/-- Claim C8 witness. -/
theorem c8_witness :
    extractTerms [] (lc "x + y") = [] ∧
    toRenderable [] (lc "x + y") = lc "x + y" ∧
    lookupS [(lc "a", lc "#111111")] (lc "a") = some (lc "#111111") ∧
    renderColor [(lc "a", lc "#111111")] (lc "a") = lc "#111111" ∧
    toRenderable [] (wrapAnn (lc "a") (lc "y") ++ [])
      = lc "\\textcolor\x7b" ++ renderColor [] (lc "a")
          ++ '\x7d' :: '\x7b' :: (lc "y" ++ '\x7d' :: toRenderable [] []) :=
  ⟨by decide, c8_amended.1 [] (lc "x + y") (by decide), by decide,
    c8_amended.2.2.2.1 [(lc "a", lc "#111111")] (lc "a") (lc "#111111") (by decide) (by decide),
    c8_amended.2.1 [] (lc "a") (lc "y") [] (by decide) (by decide) (by decide) (by decide)⟩

/-- Claim C9 (corrected), counterexample: the name `.` has no annotation
occurrence in `\clr{b}{y}`, yet because the name is spliced into the regex
unescaped it matches the single-character name `b`, and both operations
modify the markup instead of being a no-op. -/
theorem c9_counterexample :
    hasOccLit (lc ".") (lc "\\clr\x7bb\x7d\x7by\x7d") = false ∧
    removeTerm (lc "\\clr\x7bb\x7d\x7by\x7d") (lc ".") = lc "y" ∧
    updateTerm (lc "\\clr\x7bb\x7d\x7by\x7d") (lc ".") (lc "w") = lc "\\clr\x7b.\x7d\x7bw\x7d" ∧
    removeTerm (lc "\\clr\x7bb\x7d\x7by\x7d") (lc ".") ≠ lc "\\clr\x7bb\x7d\x7by\x7d" := by
  refine ⟨by decide, by decide, by decide, by decide⟩

/-- Claim C9 (amended): for a name free of regex-special characters that
has no literal annotation occurrence in the markup, `updateTerm` and
`removeTerm` return the markup unchanged — a silent no-op, never an
error.  Names containing regex metacharacters escape this guarantee. -/
theorem c9_amended (M N C : List Char) (hp : plainName N = true)
    (h : hasOccLit N M = false) :
    updateTerm M N C = M ∧ removeTerm M N = M := by
  have hall := allNoneName_of_not_occ hp h
  exact ⟨replaceClrName_id _ hall, replaceClrName_id _ hall⟩

/-- Claim C9 witness. -/
theorem c9_witness :
    plainName (lc "a") = true ∧
    hasOccLit (lc "a") (lc "x + y") = false ∧
    updateTerm (lc "x + y") (lc "a") (lc "w") = lc "x + y" ∧
    removeTerm (lc "x + y") (lc "a") = lc "x + y" := by
  have h := c9_amended (lc "x + y") (lc "a") (lc "w") (by decide) (by decide)
  exact ⟨by decide, by decide, h.1, h.2⟩

/-- Claim C10 (confirmed): every extracted term has a non-empty name and a
non-empty content, because both capture groups require at least one
non-brace character; consequently an annotation written with empty content
— in particular the `\clr{N}{}` produced by `updateTerm` with an empty new
content — never appears as a term in any subsequent extraction. -/
theorem c10_confirmed :
    (∀ (cm : List (List Char × List Char)) (s : List Char), ∀ t ∈ extractTerms cm s,
      t.name ≠ [] ∧ t.content ≠ []) ∧
    (∀ (cm : List (List Char × List Char)) (M N : List Char),
      ∀ t ∈ extractTerms cm (updateTerm M N []), ¬(t.name = N ∧ t.content = [])) := by
  constructor
  · intro cm s t ht
    exact extractF_nonempty ht
  · intro cm M N t ht hc
    exact (extractF_nonempty ht).2 hc.2

/-- Claim C10 witness. -/
theorem c10_witness :
    (⟨lc "a", lc "y", presetAt 0⟩ : Tm) ∈ extractTerms [] (lc "\\clr\x7ba\x7d\x7by\x7d") ∧
    (⟨lc "a", lc "y", presetAt 0⟩ : Tm).name ≠ [] ∧
    (⟨lc "a", lc "y", presetAt 0⟩ : Tm).content ≠ [] := by
  have h := c10_confirmed.1 [] (lc "\\clr\x7ba\x7d\x7by\x7d")
    ⟨lc "a", lc "y", presetAt 0⟩ (by decide)
  exact ⟨by decide, h.1, h.2⟩
